import Mathlib

/-!
Verification of the git-black attribution pipeline (`src/git_black/__init__.py`).

The development shallowly embeds the program's data model and operations:

* `Delta`            — the immutable line-edit record (`Delta` dataclass);
* `Patcher`          — the in-memory, offset-correcting patch applier;
* `HunkBlamer._map_lines`, `HunkBlamer.blames`, `bisect` — the line mapper
  and the blame index lookup;
* `GitBlack._commit`, `GitBlack.phase2`, `GitBlack.commit_changes` — the
  commit orchestrator.

Byte strings are modelled as `List Nat` and a file line as a `List Nat`
(raw bytes, terminator included).  Python `dict`/`set` state of the patcher
is modelled as a total function (default `0`) together with the `Finset` of
keys; the program keeps the key set of `_offsets` equal to `_applied` at all
times, so a single key set suffices.  Python list slice assignment
(`lines[i:j] = new`) is modelled exactly, including negative-index
normalisation and clamping.
-/

/-- A raw byte line (terminator included), as produced by `BytesIO.readlines`. -/
abbrev Line := List Nat

/-- `Delta`: the immutable record of a line-level edit (the `Delta` dataclass). -/
structure Delta where
  filename : String
  old_start : Nat
  old_lines : List Line
  old_length : Nat
  new_start : Nat
  new_length : Nat
  new_lines : List Line
deriving DecidableEq

/-- `Delta.offset = new_length - old_length` (the `offset` property). -/
def Delta.offset (d : Delta) : Int := (d.new_length : Int) - (d.old_length : Int)

/-- Normalisation of a Python slice endpoint against a list of length `n`:
negative indices count from the end, then the result is clamped to `[0, n]`. -/
def pyIdx (n : Nat) (i : Int) : Nat :=
  if i < 0 then (i + n).toNat else min i.toNat n

/-- Python list slice assignment `l[i:j] = new` (step 1): both endpoints are
normalised, and an inverted range inserts at the left endpoint. -/
def pySetSlice {α : Type} (l : List α) (i j : Int) (new : List α) : List α :=
  let i' := pyIdx l.length i
  let j' := max i' (pyIdx l.length j)
  l.take i' ++ new ++ l.drop j'

/-- `BytesIO(data).readlines()`: split a byte string after every `\n` (byte 10),
keeping the terminators; a trailing chunk without a terminator is kept. -/
def readlinesAux : List Nat → List Nat → List Line
  | [], acc => if acc = [] then [] else [acc.reverse]
  | b :: rest, acc =>
      if b = 10 then (b :: acc).reverse :: readlinesAux rest []
      else readlinesAux rest (b :: acc)

/-- The byte-lines of a file's HEAD content (`Patcher._load_lines`). -/
def readlines (bs : List Nat) : List Line := readlinesAux bs []

/-- `Patcher` state: the current byte-lines, the recorded offsets
(`_offsets`, a map defaulting to `0` off its key set) and the set of
`old_start` values already applied (`_applied`).  The source maintains
`keys(_offsets) == _applied`, so `applied` serves as the common key set. -/
structure Patcher where
  lines : List Line
  offsets : Nat → Int
  applied : Finset Nat

/-- `Patcher.__init__` from a file's HEAD bytes. -/
def Patcher.init (headBytes : List Nat) : Patcher :=
  ⟨readlines headBytes, fun _ => 0, ∅⟩

/-- The loop `for pos, off in self._offsets.items(): if delta.old_start > pos:
old_start += off` — the sum of recorded offsets at positions strictly below
`delta.old_start`. -/
def Patcher.shift (p : Patcher) (d : Delta) : Int :=
  (p.applied.filter (fun pos => d.old_start > pos)).sum p.offsets

/-- `Patcher.apply`: no-op when `delta.old_start ∈ _applied`; otherwise shift
`old_start` by the recorded offsets below it, add 1 when `old_length == 0`,
splice `new_lines` over `lines[i:j]`, then record the offset and mark the
delta applied. -/
def Patcher.apply (p : Patcher) (d : Delta) : Patcher :=
  if d.old_start ∈ p.applied then p
  else
    let old_start : Int :=
      (d.old_start : Int) + p.shift d + (if d.old_length = 0 then 1 else 0)
    let i : Int := old_start - 1
    let j : Int := i + (d.old_length : Int)
    { lines := pySetSlice p.lines i j d.new_lines
      offsets := Function.update p.offsets d.old_start d.offset
      applied := insert d.old_start p.applied }

/-- `Patcher.content`: `b"".join(self._lines)`. -/
def Patcher.content (p : Patcher) : List Nat := p.lines.flatten

/-- The 0-based start index of the splice `Patcher.apply` would perform for
`d` in state `p` (`i = old_start - 1` after shifting). -/
def Patcher.effI (p : Patcher) (d : Delta) : Int :=
  (d.old_start : Int) + p.shift d + (if d.old_length = 0 then 1 else 0) - 1

/-- The 0-based end index of the splice `Patcher.apply` would perform
(`j = i + old_length`). -/
def Patcher.effJ (p : Patcher) (d : Delta) : Int :=
  p.effI d + (d.old_length : Int)

/-- A delta's old-side range lies within a file of `n` HEAD lines: a pure
insertion is anchored at a gap `0..n`, a replacement at lines
`old_start..old_start+old_length-1` with `old_start ≥ 1`. -/
def InBounds (n : Nat) (d : Delta) : Prop :=
  (d.old_length = 0 → d.old_start ≤ n) ∧
  (d.old_length ≠ 0 → 1 ≤ d.old_start ∧ d.old_start + d.old_length ≤ n + 1)

/-- The data-model invariant `len(new_lines) == new_length`. -/
def Delta.WF (d : Delta) : Prop := d.new_lines.length = d.new_length

/-- Exact (unclamped) splice `take a ++ new ++ drop b` on plain indices. -/
def splice {α : Type} (L : List α) (a b : Nat) (new : List α) : List α :=
  L.take a ++ new ++ L.drop b

instance (d : Delta) : Decidable d.WF := by
  unfold Delta.WF
  infer_instance

instance (n : Nat) (d : Delta) : Decidable (InBounds n d) := by
  unfold InBounds
  infer_instance

theorem Patcher.apply_of_mem {p : Patcher} {d : Delta}
    (h : d.old_start ∈ p.applied) : p.apply d = p := by
  simp [Patcher.apply, h]

theorem Patcher.apply_of_not_mem {p : Patcher} {d : Delta}
    (h : d.old_start ∉ p.applied) :
    p.apply d =
      { lines := pySetSlice p.lines (p.effI d) (p.effJ d) d.new_lines
        offsets := Function.update p.offsets d.old_start d.offset
        applied := insert d.old_start p.applied } := by
  simp only [Patcher.apply, h, if_false, Patcher.effI, Patcher.effJ]

/-- C5: when `old_start` is not yet applied, `apply` splices `new_lines` over
`lines[i:j]` with `i = effective_start - 1`, `j = i + old_length`,
`effective_start = old_start + Σ offsets below + (1 if old_length == 0)`,
then records the offset under `old_start` and adds `old_start` to the applied
set; moreover when the splice indices are in range the slice assignment is a
plain replacement `take i ++ new_lines ++ drop j`. -/
theorem patcher_apply_spec (p : Patcher) (d : Delta)
    (h : d.old_start ∉ p.applied) :
    (p.apply d).lines =
        pySetSlice p.lines
          ((d.old_start : Int) +
              (p.applied.filter (fun pos => pos < d.old_start)).sum p.offsets +
              (if d.old_length = 0 then 1 else 0) - 1)
          ((d.old_start : Int) +
              (p.applied.filter (fun pos => pos < d.old_start)).sum p.offsets +
              (if d.old_length = 0 then 1 else 0) - 1 + (d.old_length : Int))
          d.new_lines ∧
      (p.apply d).offsets = Function.update p.offsets d.old_start d.offset ∧
      (p.apply d).applied = insert d.old_start p.applied ∧
      (0 ≤ p.effI d → p.effJ d ≤ (p.lines.length : Int) →
        (p.apply d).lines =
          p.lines.take (p.effI d).toNat ++ d.new_lines ++
            p.lines.drop (p.effJ d).toNat) := by
  have hfilter :
      (p.applied.filter (fun pos => pos < d.old_start)) =
        (p.applied.filter (fun pos => d.old_start > pos)) := by
    apply Finset.filter_congr
    intro x _
    simp [gt_iff_lt]
  rw [Patcher.apply_of_not_mem h]
  refine ⟨?_, rfl, rfl, ?_⟩
  · simp only [Patcher.effI, Patcher.effJ, Patcher.shift, hfilter]
  · intro h0 hj
    have hIJ : p.effI d ≤ p.effJ d := by
      simp only [Patcher.effJ]
      omega
    simp only [pySetSlice, pyIdx]
    have hiN : ¬ p.effI d < 0 := by omega
    have hjN : ¬ p.effJ d < 0 := by omega
    have hIn : (p.effI d).toNat ≤ p.lines.length := by omega
    have hJn : (p.effJ d).toNat ≤ p.lines.length := by omega
    simp only [hiN, if_false, hjN]
    have h1 : min (p.effI d).toNat p.lines.length = (p.effI d).toNat :=
      Nat.min_eq_left hIn
    have h2 : min (p.effJ d).toNat p.lines.length = (p.effJ d).toNat :=
      Nat.min_eq_left hJn
    rw [h1, h2]
    have h3 : max (p.effI d).toNat (p.effJ d).toNat = (p.effJ d).toNat := by
      omega
    rw [h3]

/-- Witness for C5 at a concrete patcher and delta. -/
theorem patcher_apply_spec_witness :
    ((Patcher.init [97, 10, 98, 10]).apply
        ⟨"f", 1, [[97, 10]], 1, 1, 1, [[65, 10]]⟩).lines =
        pySetSlice (Patcher.init [97, 10, 98, 10]).lines
          ((1 : Int) +
              ((Patcher.init [97, 10, 98, 10]).applied.filter
                (fun pos => pos < 1)).sum (Patcher.init [97, 10, 98, 10]).offsets +
              (if (1 : Nat) = 0 then 1 else 0) - 1)
          ((1 : Int) +
              ((Patcher.init [97, 10, 98, 10]).applied.filter
                (fun pos => pos < 1)).sum (Patcher.init [97, 10, 98, 10]).offsets +
              (if (1 : Nat) = 0 then 1 else 0) - 1 + (1 : Int))
          [[65, 10]] ∧
      ((Patcher.init [97, 10, 98, 10]).apply
          ⟨"f", 1, [[97, 10]], 1, 1, 1, [[65, 10]]⟩).offsets =
        Function.update (Patcher.init [97, 10, 98, 10]).offsets 1
          (Delta.offset ⟨"f", 1, [[97, 10]], 1, 1, 1, [[65, 10]]⟩) ∧
      ((Patcher.init [97, 10, 98, 10]).apply
          ⟨"f", 1, [[97, 10]], 1, 1, 1, [[65, 10]]⟩).applied =
        insert 1 (Patcher.init [97, 10, 98, 10]).applied ∧
      (0 ≤ (Patcher.init [97, 10, 98, 10]).effI
            ⟨"f", 1, [[97, 10]], 1, 1, 1, [[65, 10]]⟩ →
        (Patcher.init [97, 10, 98, 10]).effJ
            ⟨"f", 1, [[97, 10]], 1, 1, 1, [[65, 10]]⟩ ≤
          ((Patcher.init [97, 10, 98, 10]).lines.length : Int) →
        ((Patcher.init [97, 10, 98, 10]).apply
            ⟨"f", 1, [[97, 10]], 1, 1, 1, [[65, 10]]⟩).lines =
          (Patcher.init [97, 10, 98, 10]).lines.take
              ((Patcher.init [97, 10, 98, 10]).effI
                ⟨"f", 1, [[97, 10]], 1, 1, 1, [[65, 10]]⟩).toNat ++
            [[65, 10]] ++
            (Patcher.init [97, 10, 98, 10]).lines.drop
              ((Patcher.init [97, 10, 98, 10]).effJ
                ⟨"f", 1, [[97, 10]], 1, 1, 1, [[65, 10]]⟩).toNat) :=
  patcher_apply_spec (Patcher.init [97, 10, 98, 10])
    ⟨"f", 1, [[97, 10]], 1, 1, 1, [[65, 10]]⟩ (by decide)

/-- C6: `Patcher.apply` is idempotent — a second application of the same delta
changes nothing (including `content()`), because `apply` is a complete no-op
whenever the delta's `old_start` is already in the applied set. -/
theorem patcher_apply_idem (p : Patcher) (d : Delta) :
    (p.apply d).apply d = p.apply d ∧
      ((p.apply d).apply d).content = (p.apply d).content ∧
      (d.old_start ∈ p.applied → p.apply d = p) := by
  have hidem : (p.apply d).apply d = p.apply d := by
    by_cases h : d.old_start ∈ p.applied
    · rw [Patcher.apply_of_mem h, Patcher.apply_of_mem h]
    · have h2 : d.old_start ∈ (p.apply d).applied := by
        rw [Patcher.apply_of_not_mem h]
        exact Finset.mem_insert_self _ _
      exact Patcher.apply_of_mem h2
  exact ⟨hidem, by rw [hidem], fun h => Patcher.apply_of_mem h⟩

/-- Witness for C6 at a concrete patcher with the delta already applied. -/
theorem patcher_apply_idem_witness :
    (Patcher.mk [[97, 10]] (fun _ => 0) {2}).apply
        ⟨"f", 2, [], 0, 2, 1, [[66, 10]]⟩ =
      Patcher.mk [[97, 10]] (fun _ => 0) {2} :=
  (patcher_apply_idem (Patcher.mk [[97, 10]] (fun _ => 0) {2})
      ⟨"f", 2, [], 0, 2, 1, [[66, 10]]⟩).2.2 (by decide)

/-- C9: a hunk whose old range lies beyond the HEAD content does not fail —
`Patcher.apply` silently clamps the slice (Python slice semantics) and appends
the new lines at the end of the file; on a 2-line file, a delta claiming to
replace line 10 simply appends.  No `DiffInconsistency` error exists anywhere
in the code. -/
theorem patcher_apply_out_of_range_clamps :
    ((Patcher.init [97, 10, 98, 10]).apply
        ⟨"f", 10, [[120, 10]], 1, 10, 1, [[90, 10]]⟩).lines =
      readlines [97, 10, 98, 10] ++ [[90, 10]] := by decide

/-- Counterexample to C1 as stated: two deltas with distinct `old_start` but
overlapping old ranges applied to the 2-line file `a\nb\n` in the two possible
orders yield different `content()`; with `d1` first the result is `B\n`, with
`d2` first it is `A\n`. -/
theorem patcher_not_commutative :
    [Delta.mk "f" 1 [[97, 10], [98, 10]] 2 1 1 [[65, 10]],
        Delta.mk "f" 2 [[98, 10]] 1 2 1 [[66, 10]]].Perm
      [Delta.mk "f" 2 [[98, 10]] 1 2 1 [[66, 10]],
        Delta.mk "f" 1 [[97, 10], [98, 10]] 2 1 1 [[65, 10]]] ∧
      ([Delta.mk "f" 1 [[97, 10], [98, 10]] 2 1 1 [[65, 10]],
          Delta.mk "f" 2 [[98, 10]] 1 2 1 [[66, 10]]].map
        Delta.old_start).Nodup ∧
      ¬ ([Delta.mk "f" 1 [[97, 10], [98, 10]] 2 1 1 [[65, 10]],
            Delta.mk "f" 2 [[98, 10]] 1 2 1 [[66, 10]]].foldl Patcher.apply
            (Patcher.init [97, 10, 98, 10])).content =
          ([Delta.mk "f" 2 [[98, 10]] 1 2 1 [[66, 10]],
              Delta.mk "f" 1 [[97, 10], [98, 10]] 2 1 1 [[65, 10]]].foldl
              Patcher.apply (Patcher.init [97, 10, 98, 10])).content := by
  refine ⟨List.Perm.swap _ _ _, by decide, by decide⟩

theorem splice_length {α : Type} (L new : List α) (a b : Nat)
    (hab : a ≤ b) (hbL : b ≤ L.length) :
    (splice L a b new).length + b = L.length + new.length + a := by
  simp only [splice, List.length_append, List.length_take, List.length_drop]
  omega

theorem pySetSlice_eq_splice {α : Type} (L new : List α) (i j : Int)
    (h0 : 0 ≤ i) (hij : i ≤ j) (hj : j ≤ (L.length : Int)) :
    pySetSlice L i j new = splice L i.toNat j.toNat new := by
  simp only [pySetSlice, pyIdx, splice]
  have hi' : ¬ i < 0 := by omega
  have hj' : ¬ j < 0 := by omega
  have h1 : min i.toNat L.length = i.toNat := by omega
  have h2 : min j.toNat L.length = j.toNat := by omega
  have h3 : max i.toNat j.toNat = j.toNat := by omega
  simp only [hi', if_false, hj', h1, h2, h3]

theorem splice_comm {α : Type} (L n1 n2 : List α) (a b c d : Nat)
    (hab : a ≤ b) (hbc : b ≤ c) (hcd : c ≤ d) (hdL : d ≤ L.length) :
    splice (splice L a b n1) (a + n1.length + (c - b))
        (a + n1.length + (d - b)) n2 =
      splice (splice L c d n2) a b n1 := by
  have hlt : (L.take a).length = a := by
    simp [List.length_take]; omega
  have hlc : (L.take c).length = c := by
    simp [List.length_take]; omega
  simp only [splice]
  have lhs1 :
      (L.take a ++ (n1 ++ L.drop b)).take (a + n1.length + (c - b)) =
        L.take a ++ (n1 ++ (L.drop b).take (c - b)) := by
    rw [List.take_append_eq_append_take]
    rw [List.take_of_length_le (by omega), hlt]
    congr 1
    rw [List.take_append_eq_append_take]
    rw [List.take_of_length_le (by omega)]
    congr 1
    congr 1
    omega
  have lhs2 :
      (L.take a ++ (n1 ++ L.drop b)).drop (a + n1.length + (d - b)) =
        L.drop d := by
    rw [List.drop_append_eq_append_drop]
    rw [List.drop_of_length_le (by omega), hlt]
    rw [List.nil_append]
    rw [List.drop_append_eq_append_drop]
    rw [List.drop_of_length_le (by omega)]
    rw [List.nil_append]
    have : a + n1.length + (d - b) - a - n1.length = d - b := by omega
    rw [this, List.drop_drop]
    congr 1
    omega
  have rhs1 : (L.take c ++ (n2 ++ L.drop d)).take a = L.take a := by
    rw [List.take_append_eq_append_take]
    have : a - (L.take c).length = 0 := by omega
    rw [this, List.take_zero, List.append_nil, List.take_take]
    congr 1
    omega
  have rhs2 :
      (L.take c ++ (n2 ++ L.drop d)).drop b =
        (L.drop b).take (c - b) ++ (n2 ++ L.drop d) := by
    rw [List.drop_append_eq_append_drop]
    have : b - (L.take c).length = 0 := by omega
    rw [this, List.drop_zero, List.drop_take]
  simp only [List.append_assoc]
  rw [lhs1, lhs2, rhs1, rhs2]
  simp [List.append_assoc]

theorem Patcher.shift_apply {p : Patcher} {d : Delta}
    (h : d.old_start ∉ p.applied) (e : Delta) :
    (p.apply d).shift e =
      p.shift e + (if d.old_start < e.old_start then d.offset else 0) := by
  rw [Patcher.apply_of_not_mem h]
  simp only [Patcher.shift, gt_iff_lt]
  rw [Finset.filter_insert]
  have hsum :
      (p.applied.filter (fun pos => pos < e.old_start)).sum
          (Function.update p.offsets d.old_start d.offset) =
        (p.applied.filter (fun pos => pos < e.old_start)).sum p.offsets := by
    refine Finset.sum_congr rfl ?_
    intro x hx
    have hxne : x ≠ d.old_start := by
      intro hEq
      exact h (hEq ▸ Finset.mem_of_mem_filter _ hx)
    exact Function.update_noteq hxne _ _
  by_cases hlt : d.old_start < e.old_start
  · rw [if_pos hlt, if_pos hlt]
    rw [Finset.sum_insert (fun hm => h (Finset.mem_of_mem_filter _ hm))]
    rw [Function.update_same, hsum]
    ring
  · rw [if_neg hlt, if_neg hlt, add_zero, hsum]

theorem Patcher.effI_apply {p : Patcher} {d : Delta}
    (h : d.old_start ∉ p.applied) (e : Delta) :
    (p.apply d).effI e =
      p.effI e + (if d.old_start < e.old_start then d.offset else 0) := by
  simp only [Patcher.effI, Patcher.shift_apply h]
  ring

theorem Patcher.effJ_apply {p : Patcher} {d : Delta}
    (h : d.old_start ∉ p.applied) (e : Delta) :
    (p.apply d).effJ e =
      p.effJ e + (if d.old_start < e.old_start then d.offset else 0) := by
  simp only [Patcher.effJ, Patcher.effI_apply h]
  ring

theorem Patcher.effI_le_effJ (p : Patcher) (d : Delta) : p.effI d ≤ p.effJ d := by
  simp only [Patcher.effJ]
  omega

theorem Patcher.lines_apply {p : Patcher} {d : Delta}
    (h : d.old_start ∉ p.applied) (h0 : 0 ≤ p.effI d)
    (hj : p.effJ d ≤ (p.lines.length : Int)) :
    (p.apply d).lines =
      splice p.lines (p.effI d).toNat (p.effJ d).toNat d.new_lines := by
  rw [Patcher.apply_of_not_mem h]
  exact pySetSlice_eq_splice _ _ _ _ h0 (p.effI_le_effJ d) hj

theorem Patcher.length_apply {p : Patcher} {d : Delta}
    (h : d.old_start ∉ p.applied) (h0 : 0 ≤ p.effI d)
    (hj : p.effJ d ≤ (p.lines.length : Int)) :
    ((p.apply d).lines.length : Int) =
      (p.lines.length : Int) + d.new_lines.length - d.old_length := by
  rw [Patcher.lines_apply h h0 hj]
  have hJI : p.effJ d = p.effI d + (d.old_length : Int) := rfl
  have hs := splice_length p.lines d.new_lines (p.effI d).toNat (p.effJ d).toNat
    (by omega) (by omega)
  omega

theorem Patcher.apply_comm_aux {p : Patcher} {x y : Delta}
    (hlt : x.old_start < y.old_start)
    (hx : x.old_start ∉ p.applied) (hy : y.old_start ∉ p.applied)
    (hwx : x.new_lines.length = x.new_length)
    (hbx0 : 0 ≤ p.effI x) (hbyN : p.effJ y ≤ (p.lines.length : Int))
    (hord : p.effJ x ≤ p.effI y) :
    (p.apply x).apply y = (p.apply y).apply x := by
  have hne : x.old_start ≠ y.old_start := Nat.ne_of_lt hlt
  have hJIx : p.effJ x = p.effI x + (x.old_length : Int) := rfl
  have hJIy : p.effJ y = p.effI y + (y.old_length : Int) := rfl
  have hbxN : p.effJ x ≤ (p.lines.length : Int) := by
    calc p.effJ x ≤ p.effI y := hord
      _ ≤ p.effJ y := p.effI_le_effJ y
      _ ≤ _ := hbyN
  have hby0 : 0 ≤ p.effI y := le_trans (le_trans hbx0 (p.effI_le_effJ x)) hord
  -- x is still applicable after y and vice versa
  have hy' : y.old_start ∉ (p.apply x).applied := by
    rw [Patcher.apply_of_not_mem hx]
    simp only [Finset.mem_insert, not_or]
    exact ⟨fun hEq => hne hEq.symm, hy⟩
  have hx' : x.old_start ∉ (p.apply y).applied := by
    rw [Patcher.apply_of_not_mem hy]
    simp only [Finset.mem_insert, not_or]
    exact ⟨hne, hx⟩
  -- x's offset as recorded equals the length change of its new lines
  have hoffx : x.offset = (x.new_lines.length : Int) - (x.old_length : Int) := by
    simp only [Delta.offset, hwx]
  -- effective indices of y after applying x, and of x after applying y
  have hIy' : (p.apply x).effI y = p.effI y + x.offset := by
    rw [Patcher.effI_apply hx, if_pos hlt]
  have hJy' : (p.apply x).effJ y = p.effJ y + x.offset := by
    rw [Patcher.effJ_apply hx, if_pos hlt]
  have hIx' : (p.apply y).effI x = p.effI x := by
    rw [Patcher.effI_apply hy, if_neg (by omega), add_zero]
  have hJx' : (p.apply y).effJ x = p.effJ x := by
    rw [Patcher.effJ_apply hy, if_neg (by omega), add_zero]
  have hlenx : ((p.apply x).lines.length : Int) =
      (p.lines.length : Int) + x.new_lines.length - x.old_length :=
    Patcher.length_apply hx hbx0 hbxN
  have hleny : ((p.apply y).lines.length : Int) =
      (p.lines.length : Int) + y.new_lines.length - y.old_length :=
    Patcher.length_apply hy hby0 hbyN
  -- bounds for the second applications
  have hIy'0 : 0 ≤ (p.apply x).effI y := by rw [hIy']; omega
  have hJy'N : (p.apply x).effJ y ≤ ((p.apply x).lines.length : Int) := by
    rw [hJy', hlenx]; omega
  have hIx'0 : 0 ≤ (p.apply y).effI x := by rw [hIx']; exact hbx0
  have hJx'N : (p.apply y).effJ x ≤ ((p.apply y).lines.length : Int) := by
    rw [hJx', hleny]; omega
  -- the four splice endpoints over the original lines
  have hLy := Patcher.lines_apply hy' hIy'0 hJy'N
  have hLx := Patcher.lines_apply hx' hIx'0 hJx'N
  have hLxf := Patcher.lines_apply hx hbx0 hbxN
  have hLyf := Patcher.lines_apply hy hby0 hbyN
  have hcomm := splice_comm p.lines x.new_lines y.new_lines
    (p.effI x).toNat (p.effJ x).toNat (p.effI y).toNat (p.effJ y).toNat
    (by omega) (by omega) (by omega) (by omega)
  have hidxI : ((p.apply x).effI y).toNat =
      (p.effI x).toNat + x.new_lines.length +
        ((p.effI y).toNat - (p.effJ x).toNat) := by
    rw [hIy', hoffx]; omega
  have hidxJ : ((p.apply x).effJ y).toNat =
      (p.effI x).toNat + x.new_lines.length +
        ((p.effJ y).toNat - (p.effJ x).toNat) := by
    rw [hJy', hoffx]; omega
  have hlines : ((p.apply x).apply y).lines = ((p.apply y).apply x).lines := by
    rw [hLy, hLx, hLxf, hLyf, hidxI, hidxJ, hIx', hJx']
    exact hcomm
  have hoffsets : ((p.apply x).apply y).offsets =
      ((p.apply y).apply x).offsets := by
    rw [Patcher.apply_of_not_mem hy', Patcher.apply_of_not_mem hx']
    simp only
    rw [Patcher.apply_of_not_mem hx, Patcher.apply_of_not_mem hy]
    simp only
    exact Function.update_comm hne _ _ _
  have happlied : ((p.apply x).apply y).applied =
      ((p.apply y).apply x).applied := by
    rw [Patcher.apply_of_not_mem hy', Patcher.apply_of_not_mem hx']
    simp only
    rw [Patcher.apply_of_not_mem hx, Patcher.apply_of_not_mem hy]
    simp only
    exact Finset.Insert.comm _ _ _
  cases hA : (p.apply x).apply y with
  | mk la oa aa =>
    cases hB : (p.apply y).apply x with
    | mk lb ob ab =>
      rw [hA, hB] at hlines hoffsets happlied
      simp only at hlines hoffsets happlied
      rw [hlines, hoffsets, happlied]

/-- Invariant carried along a run of pending deltas: all pending `old_start`s
are distinct and unapplied, every pending splice window is inside the current
lines, and windows of distinct pending deltas are disjoint and ordered. -/
def Good (s : Patcher) (l : List Delta) : Prop :=
  (l.map Delta.old_start).Nodup ∧
  (∀ d ∈ l, d.old_start ∉ s.applied) ∧
  (∀ d ∈ l, 0 ≤ s.effI d ∧ s.effJ d ≤ (s.lines.length : Int)) ∧
  (∀ x ∈ l, ∀ y ∈ l, x.old_start < y.old_start → s.effJ x ≤ s.effI y)

theorem good_perm {s : Patcher} {l₁ l₂ : List Delta} (hp : l₁.Perm l₂)
    (hg : Good s l₁) : Good s l₂ := by
  obtain ⟨h1, h2, h3, h4⟩ := hg
  refine ⟨((hp.map Delta.old_start).nodup_iff).mp h1, ?_, ?_, ?_⟩
  · intro d hd; exact h2 d (hp.mem_iff.mpr hd)
  · intro d hd; exact h3 d (hp.mem_iff.mpr hd)
  · intro x hx y hy hlt
    exact h4 x (hp.mem_iff.mpr hx) y (hp.mem_iff.mpr hy) hlt

theorem good_tail {s : Patcher} {d : Delta} {t : List Delta}
    (hg : Good s (d :: t)) (hwf : ∀ e ∈ d :: t, e.WF) :
    Good (s.apply d) t := by
  obtain ⟨h1, h2, h3, h4⟩ := hg
  simp only [List.map_cons, List.nodup_cons] at h1
  obtain ⟨hdos, h1t⟩ := h1
  have hdmem : d ∈ d :: t := List.mem_cons_self d t
  have hdnm : d.old_start ∉ s.applied := h2 d hdmem
  have hdb := h3 d hdmem
  have hwfd : d.new_lines.length = d.new_length := hwf d hdmem
  have hoffd : d.offset = (d.new_lines.length : Int) - (d.old_length : Int) := by
    simp only [Delta.offset, hwfd]
  have hJId : s.effJ d = s.effI d + (d.old_length : Int) := rfl
  have hlen : ((s.apply d).lines.length : Int) =
      (s.lines.length : Int) + d.new_lines.length - d.old_length :=
    Patcher.length_apply hdnm hdb.1 hdb.2
  have hneq : ∀ e ∈ t, e.old_start ≠ d.old_start := by
    intro e he hEq
    exact hdos (hEq ▸ List.mem_map_of_mem Delta.old_start he)
  refine ⟨h1t, ?_, ?_, ?_⟩
  · intro e he
    rw [Patcher.apply_of_not_mem hdnm]
    simp only [Finset.mem_insert, not_or]
    exact ⟨hneq e he, h2 e (List.mem_cons_of_mem d he)⟩
  · intro e he
    have hem := List.mem_cons_of_mem d he
    have heb := h3 e hem
    have hJIe : s.effJ e = s.effI e + (e.old_length : Int) := rfl
    rw [Patcher.effI_apply hdnm, Patcher.effJ_apply hdnm, hlen]
    by_cases hlt : d.old_start < e.old_start
    · have hord := h4 d hdmem e hem hlt
      rw [if_pos hlt, hoffd]
      constructor <;> omega
    · have helt : e.old_start < d.old_start :=
        Nat.lt_of_le_of_ne (Nat.le_of_not_lt hlt) (hneq e he)
      have hord := h4 e hem d hdmem helt
      rw [if_neg hlt]
      constructor <;> omega
  · intro x hx y hy hlt
    have hxm := List.mem_cons_of_mem d hx
    have hym := List.mem_cons_of_mem d hy
    have hordxy := h4 x hxm y hym hlt
    rw [Patcher.effI_apply hdnm, Patcher.effJ_apply hdnm]
    by_cases hdx : d.old_start < x.old_start
    · rw [if_pos hdx, if_pos (Nat.lt_trans hdx hlt)]
      omega
    · rw [if_neg hdx]
      by_cases hdy : d.old_start < y.old_start
      · rw [if_pos hdy, hoffd]
        have hxd : x.old_start < d.old_start :=
          Nat.lt_of_le_of_ne (Nat.le_of_not_lt hdx) (hneq x hx)
        have h5 := h4 x hxm d hdmem hxd
        have h6 := h4 d hdmem y hym hdy
        omega
      · rw [if_neg hdy]
        omega

theorem foldl_apply_perm {l₁ l₂ : List Delta} (hp : l₁.Perm l₂) :
    ∀ s : Patcher, Good s l₁ → (∀ e ∈ l₁, e.WF) →
      l₁.foldl Patcher.apply s = l₂.foldl Patcher.apply s := by
  induction hp with
  | nil => intro s _ _; rfl
  | cons x hp ih =>
      intro s hg hwf
      simp only [List.foldl_cons]
      exact ih (s.apply x) (good_tail hg hwf)
        (fun e he => hwf e (List.mem_cons_of_mem x he))
  | swap x y l =>
      intro s hg hwf
      obtain ⟨h1, h2, h3, h4⟩ := hg
      simp only [List.map_cons, List.nodup_cons, List.mem_cons] at h1
      have hne : y.old_start ≠ x.old_start := fun hEq => h1.1 (Or.inl hEq)
      have hym : y ∈ y :: x :: l := List.mem_cons_self _ _
      have hxm : x ∈ y :: x :: l :=
        List.mem_cons_of_mem y (List.mem_cons_self _ _)
      have hxa := h2 x hxm
      have hya := h2 y hym
      have hbx := h3 x hxm
      have hby := h3 y hym
      have hswap : (s.apply y).apply x = (s.apply x).apply y := by
        rcases Nat.lt_or_ge x.old_start y.old_start with hlt | hge
        · exact (Patcher.apply_comm_aux hlt hxa hya (hwf x hxm) hbx.1 hby.2
            (h4 x hxm y hym hlt)).symm
        · have hlt' : y.old_start < x.old_start :=
            Nat.lt_of_le_of_ne hge hne
          exact Patcher.apply_comm_aux hlt' hya hxa (hwf y hym) hby.1 hbx.2
            (h4 y hym x hxm hlt')
      simp only [List.foldl_cons]
      rw [hswap]
  | trans h12 h23 ih12 ih23 =>
      intro s hg hwf
      rw [ih12 s hg hwf]
      exact ih23 s (good_perm h12 hg)
        (fun e he => hwf e (h12.mem_iff.mpr he))

/-- C1 (amended): starting from a file's HEAD bytes, applying a list of
well-formed deltas whose `old_start`s are pairwise distinct, whose old ranges
are pairwise non-overlapping and all within the HEAD content, yields the same
`content()` in any permutation of the list. -/
theorem patcher_commutative_of_disjoint (bs : List Nat) (l₁ l₂ : List Delta)
    (hperm : l₁.Perm l₂)
    (hnd : (l₁.map Delta.old_start).Nodup)
    (hwf : ∀ d ∈ l₁, d.WF)
    (hdisj : ∀ x ∈ l₁, ∀ y ∈ l₁, x.old_start < y.old_start →
        x.old_start + x.old_length ≤ y.old_start)
    (hbound : ∀ d ∈ l₁, InBounds (readlines bs).length d) :
    (l₁.foldl Patcher.apply (Patcher.init bs)).content =
      (l₂.foldl Patcher.apply (Patcher.init bs)).content := by
  have hshift0 : ∀ d : Delta, (Patcher.init bs).shift d = 0 := by
    intro d
    simp [Patcher.shift, Patcher.init]
  have heffI : ∀ d : Delta, (Patcher.init bs).effI d =
      (d.old_start : Int) + (if d.old_length = 0 then 1 else 0) - 1 := by
    intro d
    simp [Patcher.effI, hshift0]
  have heffJ : ∀ d : Delta, (Patcher.init bs).effJ d =
      (d.old_start : Int) + (if d.old_length = 0 then 1 else 0) - 1 +
        (d.old_length : Int) := by
    intro d
    simp only [Patcher.effJ, heffI]
  have hG : Good (Patcher.init bs) l₁ := by
    refine ⟨hnd, fun d _ => Finset.not_mem_empty _, ?_, ?_⟩
    · intro d hd
      obtain ⟨hb0, hb1⟩ := hbound d hd
      have hlen : (Patcher.init bs).lines.length = (readlines bs).length := rfl
      rw [heffI, heffJ, hlen]
      by_cases h0 : d.old_length = 0
      · have := hb0 h0
        rw [if_pos h0]
        constructor <;> omega
      · obtain ⟨hge, hle⟩ := hb1 h0
        rw [if_neg h0]
        constructor <;> omega
    · intro x hx y hy hlt
      have hd := hdisj x hx y hy hlt
      rw [heffI, heffJ]
      by_cases h0 : x.old_length = 0
      · rw [if_pos h0]
        by_cases h1 : y.old_length = 0 <;> [rw [if_pos h1]; rw [if_neg h1]] <;>
          omega
      · rw [if_neg h0]
        by_cases h1 : y.old_length = 0 <;> [rw [if_pos h1]; rw [if_neg h1]] <;>
          omega
  rw [foldl_apply_perm hperm (Patcher.init bs) hG hwf]

/-- Witness for the amended C1 on two disjoint in-bounds deltas over a 3-line
file, applied in both orders. -/
theorem patcher_commutative_witness :
    (([⟨"f", 1, [[97, 10]], 1, 1, 1, [[88, 10]]⟩,
        ⟨"f", 3, [[99, 10]], 1, 3, 1, [[89, 10]]⟩] : List Delta).foldl
          Patcher.apply (Patcher.init [97, 10, 98, 10, 99, 10])).content =
      (([⟨"f", 3, [[99, 10]], 1, 3, 1, [[89, 10]]⟩,
          ⟨"f", 1, [[97, 10]], 1, 1, 1, [[88, 10]]⟩] : List Delta).foldl
            Patcher.apply (Patcher.init [97, 10, 98, 10, 99, 10])).content :=
  patcher_commutative_of_disjoint [97, 10, 98, 10, 99, 10] _ _
    (by decide) (by decide) (by decide) (by decide) (by decide)

/-- Python `min(xs, default=0)` on line-number tuples. -/
def pyMinD : List Nat → Nat
  | [] => 0
  | x :: xs => xs.foldl min x

/-- `HunkBlamer._map_lines`: split a hunk delta into pairs of 0-indexed
source/destination line tuples — the two degenerate cases, then
`min(O,N)-1` one-to-one pairs followed by one tail pair absorbing the
remainder (Python dict in insertion order, modelled as an association
list). -/
def HunkBlamer._map_lines (delta : Delta) : List (List Nat × List Nat) :=
  if delta.old_length = 0 then [([], List.range delta.new_length)]
  else if delta.new_length = 0 then [(List.range delta.old_length, [])]
  else
    ((List.range (min delta.old_length delta.new_length - 1)).map
        fun i => ([i], [i])) ++
      (if delta.new_length ≤ delta.old_length then
          [(List.range' (delta.new_length - 1)
              (delta.old_length - delta.new_length + 1), [delta.new_length - 1])]
        else
          [([delta.old_length - 1],
            List.range' (delta.old_length - 1)
              (delta.new_length - delta.old_length + 1))])

theorem flatten_map_singleton (l : List Nat) :
    (l.map (fun i => [i])).flatten = l := by
  induction l with
  | nil => rfl
  | cons x xs ih => simp [ih]

/-- C2: for `O, N > 0` the mapper emits `min(O,N) - 1` one-to-one pairs
`([i],[i])` followed by one tail pair (collapsing `old[N-1..O-1]` into
`new[N-1]` when `O ≥ N`, expanding `old[O-1]` into `new[O-1..N-1]` when
`O < N`); and for `O + N > 0` the flattened source sides are a permutation of
`{0..O-1}`, the flattened destination sides a permutation of `{0..N-1}` (so
each side covers its range exactly once, with no overlap between pairs). -/
theorem map_lines_spec (d : Delta) :
    (0 < d.old_length → 0 < d.new_length →
      (HunkBlamer._map_lines d).length = min d.old_length d.new_length ∧
      (∀ i, i < min d.old_length d.new_length - 1 →
        (HunkBlamer._map_lines d)[i]? = some ([i], [i])) ∧
      (HunkBlamer._map_lines d).getLast? = some
        (if d.new_length ≤ d.old_length then
          (List.range' (d.new_length - 1) (d.old_length - d.new_length + 1),
            [d.new_length - 1])
        else
          ([d.old_length - 1],
            List.range' (d.old_length - 1)
              (d.new_length - d.old_length + 1)))) ∧
    (0 < d.old_length + d.new_length →
      ((HunkBlamer._map_lines d).map Prod.fst).flatten.Perm
          (List.range d.old_length) ∧
      ((HunkBlamer._map_lines d).map Prod.snd).flatten.Perm
          (List.range d.new_length)) := by
  constructor
  · intro hO hN
    have hO0 : ¬ d.old_length = 0 := by omega
    have hN0 : ¬ d.new_length = 0 := by omega
    unfold HunkBlamer._map_lines
    rw [if_neg hO0, if_neg hN0]
    refine ⟨?_, ?_, ?_⟩
    · rw [List.length_append, List.length_map, List.length_range]
      by_cases h : d.new_length ≤ d.old_length <;>
        [rw [if_pos h]; rw [if_neg h]] <;> simp <;> omega
    · intro i hi
      rw [List.getElem?_append_left (by simpa using hi)]
      simp [List.getElem?_map, List.getElem?_range hi]
    · by_cases h : d.new_length ≤ d.old_length <;>
        [rw [if_pos h, if_pos h]; rw [if_neg h, if_neg h]] <;>
        exact List.getLast?_concat _
  · intro _
    unfold HunkBlamer._map_lines
    by_cases hO0 : d.old_length = 0
    · rw [if_pos hO0, hO0]
      constructor
      · simp
      · simp
    · rw [if_neg hO0]
      by_cases hN0 : d.new_length = 0
      · rw [if_pos hN0, hN0]
        constructor
        · simp
        · simp
      · rw [if_neg hN0]
        by_cases h : d.new_length ≤ d.old_length
        · rw [if_pos h]
          have hmin : min d.old_length d.new_length = d.new_length := by omega
        
          rw [hmin]
          constructor
          · have : ((((List.range (d.new_length - 1)).map fun i => ([i], [i])) ++
                [(List.range' (d.new_length - 1)
                    (d.old_length - d.new_length + 1),
                  [d.new_length - 1])]).map Prod.fst).flatten =
                List.range d.old_length := by
              rw [List.map_append, List.flatten_append]
              simp only [List.map_map]
              have h1 : ((List.range (d.new_length - 1)).map
                  (Prod.fst ∘ fun i => (([i] : List Nat), ([i] : List Nat)))).flatten =
                  List.range (d.new_length - 1) := flatten_map_singleton _
              rw [h1]
              simp only [List.map_cons, List.map_nil, List.flatten_cons,
                List.flatten_nil, List.append_nil]
              rw [List.range_eq_range', List.range_eq_range']
              have := List.range'_append_1 0 (d.new_length - 1)
                (d.old_length - d.new_length + 1)
              rw [Nat.zero_add] at this
              rw [this]
              congr 1
              omega
            rw [this]
          · have : ((((List.range (d.new_length - 1)).map fun i => ([i], [i])) ++
                [(List.range' (d.new_length - 1)
                    (d.old_length - d.new_length + 1),
                  [d.new_length - 1])]).map Prod.snd).flatten =
                List.range d.new_length := by
              rw [List.map_append, List.flatten_append]
              simp only [List.map_map]
              have h1 : ((List.range (d.new_length - 1)).map
                  (Prod.snd ∘ fun i => (([i] : List Nat), ([i] : List Nat)))).flatten =
                  List.range (d.new_length - 1) := flatten_map_singleton _
              rw [h1]
              simp only [List.map_cons, List.map_nil, List.flatten_cons,
                List.flatten_nil, List.append_nil]
              rw [← List.range_succ]
              congr 1
              omega
            rw [this]
        · rw [if_neg h]
          have hmin : min d.old_length d.new_length = d.old_length := by omega
          rw [hmin]
          constructor
          · have : ((((List.range (d.old_length - 1)).map fun i => ([i], [i])) ++
                [(([d.old_length - 1] : List Nat),
                  List.range' (d.old_length - 1)
                    (d.new_length - d.old_length + 1))]).map Prod.fst).flatten =
                List.range d.old_length := by
              rw [List.map_append, List.flatten_append]
              simp only [List.map_map]
              have h1 : ((List.range (d.old_length - 1)).map
                  (Prod.fst ∘ fun i => (([i] : List Nat), ([i] : List Nat)))).flatten =
                  List.range (d.old_length - 1) := flatten_map_singleton _
              rw [h1]
              simp only [List.map_cons, List.map_nil, List.flatten_cons,
                List.flatten_nil, List.append_nil]
              rw [← List.range_succ]
              congr 1
              omega
            rw [this]
          · have : ((((List.range (d.old_length - 1)).map fun i => ([i], [i])) ++
                [(([d.old_length - 1] : List Nat),
                  List.range' (d.old_length - 1)
                    (d.new_length - d.old_length + 1))]).map Prod.snd).flatten =
                List.range d.new_length := by
              rw [List.map_append, List.flatten_append]
              simp only [List.map_map]
              have h1 : ((List.range (d.old_length - 1)).map
                  (Prod.snd ∘ fun i => (([i] : List Nat), ([i] : List Nat)))).flatten =
                  List.range (d.old_length - 1) := flatten_map_singleton _
              rw [h1]
              simp only [List.map_cons, List.map_nil, List.flatten_cons,
                List.flatten_nil, List.append_nil]
              rw [List.range_eq_range', List.range_eq_range']
              have := List.range'_append_1 0 (d.old_length - 1)
                (d.new_length - d.old_length + 1)
              rw [Nat.zero_add] at this
              rw [this]
              congr 1
              omega
            rw [this]

/-- Witness for C2 at `O = 3`, `N = 2`. -/
theorem map_lines_spec_witness :
    ((HunkBlamer._map_lines ⟨"f", 1, [[97], [98], [99]], 3, 1, 2, [[65], [66]]⟩).length =
        min 3 2 ∧
      (∀ i, i < min 3 2 - 1 →
        (HunkBlamer._map_lines
            ⟨"f", 1, [[97], [98], [99]], 3, 1, 2, [[65], [66]]⟩)[i]? =
          some ([i], [i])) ∧
      (HunkBlamer._map_lines
          ⟨"f", 1, [[97], [98], [99]], 3, 1, 2, [[65], [66]]⟩).getLast? = some
        (if (2 : Nat) ≤ 3 then (List.range' 1 2, [1])
          else ([2], List.range' 2 0))) ∧
      ((HunkBlamer._map_lines
            ⟨"f", 1, [[97], [98], [99]], 3, 1, 2, [[65], [66]]⟩).map
          Prod.fst).flatten.Perm (List.range 3) ∧
      ((HunkBlamer._map_lines
            ⟨"f", 1, [[97], [98], [99]], 3, 1, 2, [[65], [66]]⟩).map
          Prod.snd).flatten.Perm (List.range 2) := by
  have h := map_lines_spec ⟨"f", 1, [[97], [98], [99]], 3, 1, 2, [[65], [66]]⟩
  exact ⟨h.1 (by decide) (by decide), h.2 (by decide)⟩

/-- The binary-search loop of `bisect.bisect` (a.k.a. `bisect_right`), with
explicit fuel; `a.length` units of fuel always suffice since the window
halves each step. -/
def bisectLoop (a : List Nat) (x : Nat) : Nat → Nat → Nat → Nat
  | 0, lo, _ => lo
  | fuel + 1, lo, hi =>
      if lo < hi then
        if x < a.getD ((lo + hi) / 2) 0 then bisectLoop a x fuel lo ((lo + hi) / 2)
        else bisectLoop a x fuel (((lo + hi) / 2) + 1) hi
      else lo

/-- `bisect.bisect(a, x)`: the rightmost insertion point for `x` in the
ascending list `a`. -/
def bisect (a : List Nat) (x : Nat) : Nat := bisectLoop a x a.length 0 a.length

/-- Python `l[i]` for an `int` index: negative indices count from the end;
out-of-range access (an `IndexError` in Python) is modelled as `none`. -/
def pyListGet {α : Type} (l : List α) (i : Int) : Option α :=
  if i < 0 then
    if i + l.length < 0 then none else l[(i + l.length).toNat]?
  else l[i.toNat]?

/-- `HunkBlamer._blame`: look up the blame run containing `lineno` via
`bisect(starts, lineno) - 1` (a Python index, so `-1` wraps to the last
entry), returning the commit of that run.  `starts`/`commits` are the two
parallel lists built by `_load_blame`; commit ids are modelled as `Nat`. -/
def HunkBlamer._blame (starts commits : List Nat) (lineno : Nat) : Option Nat :=
  pyListGet commits ((bisect starts lineno : Int) - 1)

theorem bisectLoop_le (a : List Nat) (x : Nat) :
    ∀ (fuel lo hi : Nat), lo ≤ hi →
      lo ≤ bisectLoop a x fuel lo hi ∧ bisectLoop a x fuel lo hi ≤ hi := by
  intro fuel
  induction fuel with
  | zero => intro lo hi h; exact ⟨Nat.le_refl _, h⟩
  | succ n ih =>
      intro lo hi h
      simp only [bisectLoop]
      by_cases hlt : lo < hi
      · rw [if_pos hlt]
        by_cases hx : x < a.getD ((lo + hi) / 2) 0
        · rw [if_pos hx]
          have := ih lo ((lo + hi) / 2) (by omega)
          omega
        · rw [if_neg hx]
          have := ih (((lo + hi) / 2) + 1) hi (by omega)
          omega
      · rw [if_neg hlt]
        exact ⟨Nat.le_refl _, h⟩

theorem bisectLoop_all_gt (a : List Nat) (x : Nat) :
    ∀ (fuel lo hi : Nat), hi - lo ≤ fuel →
      (∀ i, lo ≤ i → i < hi → x < a.getD i 0) →
      bisectLoop a x fuel lo hi = lo := by
  intro fuel
  induction fuel with
  | zero => intro lo hi h _; rfl
  | succ n ih =>
      intro lo hi h hall
      simp only [bisectLoop]
      by_cases hlt : lo < hi
      · rw [if_pos hlt]
        have hmid : x < a.getD ((lo + hi) / 2) 0 :=
          hall _ (by omega) (by omega)
        rw [if_pos hmid]
        exact ih lo ((lo + hi) / 2) (by omega) (fun i h1 h2 => hall i h1 (by omega))
      · rw [if_neg hlt]

/-- C10: for a nonempty ascending blame index, looking up a line number
strictly below the first run's start does not fail: `bisect` returns
insertion point `0`, the Python index `-1` wraps around, and the commit of
the *last* run is returned — in particular a probe at line `0` (a pure
insertion at the top of the file, hunk `old_start = 0`) is attributed to the
file's final blame run. -/
theorem blame_below_first_run (starts commits : List Nat) (lineno : Nat)
    (hs : starts.Sorted (· ≤ ·)) (hne : starts ≠ []) (hcne : commits ≠ [])
    (hlt : lineno < starts.head hne) :
    bisect starts lineno = 0 ∧
      HunkBlamer._blame starts commits lineno =
        some (commits.getLast hcne) := by
  obtain ⟨s, rest, rfl⟩ : ∃ s rest, starts = s :: rest := by
    cases starts with
    | nil => exact absurd rfl hne
    | cons s rest => exact ⟨s, rest, rfl⟩
  have hhead : (s :: rest).head hne = s := rfl
  rw [hhead] at hlt
  have hcons := List.sorted_cons.mp hs
  have hall : ∀ i, 0 ≤ i → i < (s :: rest).length →
      lineno < (s :: rest).getD i 0 := by
    intro i _ hi
    have hget : (s :: rest).getD i 0 = (s :: rest)[i] := by
      simp [List.getD_eq_getElem?_getD, List.getElem?_eq_getElem hi]
    rw [hget]
    have hmem : (s :: rest)[i] ∈ s :: rest := List.getElem_mem hi
    rcases List.mem_cons.mp hmem with hEq | hmem'
    · omega
    · have := hcons.1 _ hmem'
      omega
  have hb : bisect (s :: rest) lineno = 0 :=
    bisectLoop_all_gt (s :: rest) lineno (s :: rest).length 0
      (s :: rest).length (by omega) hall
  refine ⟨hb, ?_⟩
  unfold HunkBlamer._blame
  rw [hb]
  simp only [Nat.cast_zero]
  have hclen : 1 ≤ commits.length := by
    cases commits with
    | nil => exact absurd rfl hcne
    | cons c cs => simp
  unfold pyListGet
  have h1 : ((0 : Int) - 1) < 0 := by omega
  have h2 : ¬ ((0 : Int) - 1 + (commits.length : Int) < 0) := by omega
  rw [if_pos h1, if_neg h2]
  have h3 : (((0 : Int) - 1 + (commits.length : Int)).toNat) =
      commits.length - 1 := by omega
  rw [h3, ← List.getLast?_eq_getElem?, List.getLast?_eq_getLast commits hcne]

/-- Witness for C10: a two-run blame index probed at line 0 returns the
commit of the last run. -/
theorem blame_below_first_run_witness :
    bisect [1, 5] 0 = 0 ∧
      HunkBlamer._blame [1, 5] [10, 20] 0 =
        some (([10, 20] : List Nat).getLast (by decide)) :=
  blame_below_first_run [1, 5] [10, 20] 0 (by decide) (by decide) (by decide)
    (by decide)

/-- The micro-deltas built by the loop in `HunkBlamer.blames` from one hunk
delta: one per `_map_lines` entry, repositioned by adding the minimum
source/destination line number (`min(..., default=0)`) to the hunk's starts
and carrying the selected lines (in-range Python list indexing modelled by
`getD`). -/
def HunkBlamer.microDeltas (fn : String) (hd : Delta) : List Delta :=
  (HunkBlamer._map_lines hd).map fun ln =>
    { filename := fn
      old_start := hd.old_start + pyMinD ln.1
      old_lines := ln.1.map (fun i => hd.old_lines.getD i [])
      old_length := ln.1.length
      new_start := hd.new_start + pyMinD ln.2
      new_length := (ln.2.map (fun i => hd.new_lines.getD i [])).length
      new_lines := ln.2.map (fun i => hd.new_lines.getD i []) }

/-- `HunkBlamer.blames`: concatenate the micro-deltas of all hunk deltas and
attribute each micro-delta to the set of commits blaming the HEAD lines
`range(old_start, old_start + max(1, old_length))`.  The `set` of commit ids
is a `Finset`; an out-of-range blame probe (impossible for a well-formed
index) is skipped by `filterMap`. -/
def HunkBlamer.blames (starts commits : List Nat) (fn : String)
    (hds : List Delta) : List (Delta × Finset Nat) :=
  ((hds.map (HunkBlamer.microDeltas fn)).flatten).map fun d =>
    (d, ((List.range' d.old_start (max 1 d.old_length)).filterMap
        (HunkBlamer._blame starts commits)).toFinset)

theorem bisect_le_length (a : List Nat) (x : Nat) : bisect a x ≤ a.length :=
  (bisectLoop_le a x a.length 0 a.length (Nat.zero_le _)).2

theorem blame_total (starts commits : List Nat) (hcne : commits ≠ [])
    (hlen : starts.length = commits.length) (lineno : Nat) :
    HunkBlamer._blame starts commits lineno =
      some ((HunkBlamer._blame starts commits lineno).getD 0) := by
  have hclen : 1 ≤ commits.length := List.length_pos.mpr hcne
  have hble := bisect_le_length starts lineno
  unfold HunkBlamer._blame pyListGet
  by_cases h0 : bisect starts lineno = 0
  · rw [h0]
    have h1 : ((0 : Nat) : Int) - 1 < 0 := by omega
    have h2 : ¬ (((0 : Nat) : Int) - 1 + (commits.length : Int) < 0) := by
      omega
    rw [if_pos h1, if_neg h2]
    have h3 : ((((0 : Nat) : Int) - 1 + (commits.length : Int)).toNat) =
        commits.length - 1 := by omega
    rw [h3]
    have h4 : commits.length - 1 < commits.length := by omega
    rw [List.getElem?_eq_getElem h4]
    rfl
  · have h1 : ¬ ((bisect starts lineno : Int) - 1 < 0) := by omega
    rw [if_neg h1]
    have h2 : ((bisect starts lineno : Int) - 1).toNat =
        bisect starts lineno - 1 := by omega
    rw [h2]
    have h3 : bisect starts lineno - 1 < commits.length := by omega
    rw [List.getElem?_eq_getElem h3]
    rfl

theorem filterMap_eq_map_of_some {α β : Type} {g : α → Option β} {f : α → β}
    (xs : List α) (h : ∀ x ∈ xs, g x = some (f x)) :
    xs.filterMap g = xs.map f := by
  induction xs with
  | nil => rfl
  | cons x xs ih =>
      rw [List.filterMap_cons, h x (List.mem_cons_self _ _), List.map_cons,
        ih (fun y hy => h y (List.mem_cons_of_mem x hy))]

theorem foldl_min_zero (l : List Nat) : l.foldl min 0 = 0 := by
  induction l with
  | nil => rfl
  | cons x xs ih => simpa [Nat.zero_min] using ih

theorem pyMinD_range (n : Nat) : pyMinD (List.range n) = 0 := by
  cases n with
  | zero => rfl
  | succ m =>
      rw [List.range_succ_eq_map]
      simp only [pyMinD]
      exact foldl_min_zero _

theorem map_getD_range {α : Type} (l : List α) (dflt : α) :
    (List.range l.length).map (fun i => l.getD i dflt) = l := by
  apply List.ext_getElem?
  intro n
  rw [List.getElem?_map]
  by_cases h : n < l.length
  · rw [List.getElem?_range h, List.getElem?_eq_getElem h]
    simp [List.getD_eq_getElem?_getD, List.getElem?_eq_getElem h]
  · rw [List.getElem?_eq_none (by simpa using Nat.le_of_not_lt h),
      List.getElem?_eq_none (Nat.le_of_not_lt h)]
    rfl

theorem microDeltas_insertion (fn : String) (hd : Delta)
    (h0 : hd.old_length = 0) (hwf : hd.WF) :
    HunkBlamer.microDeltas fn hd =
      [⟨fn, hd.old_start, [], 0, hd.new_start, hd.new_length,
        hd.new_lines⟩] := by
  have hwf' : hd.new_lines.length = hd.new_length := hwf
  have hnl : (List.range hd.new_length).map
      (fun i => hd.new_lines.getD i []) = hd.new_lines := by
    rw [← hwf']
    exact map_getD_range _ _
  unfold HunkBlamer.microDeltas HunkBlamer._map_lines
  rw [if_pos h0, List.map_cons, List.map_nil]
  have hminnil : pyMinD ([] : List Nat) = 0 := rfl
  simp only [List.getD_eq_getElem?_getD] at hnl
  congr 1
  simp [Delta.mk.injEq, hminnil, pyMinD_range, hnl, hwf']

/-- C3: with a well-formed blame index (parallel nonempty `starts`/`commits`),
(1) a pure-insertion hunk (`old_length = 0`) produces exactly one micro-delta
with no source lines and all target lines, whose origin set is the singleton
blame of the anchor line `old_start` (the line the zero-context diff places
the insertion after — the line adjoining the insertion point); and (2) every
emitted `DeltaBlame`'s origin set is the image under the blame lookup of
`range(old_start, old_start + max(1, old_length))`, hence nonempty even for
pure insertions. -/
theorem blames_origin_spec (starts commits : List Nat) (hcne : commits ≠ [])
    (hlen : starts.length = commits.length) :
    (∀ (fn : String) (hd : Delta), hd.old_length = 0 → hd.WF →
      ∃ c, HunkBlamer._blame starts commits hd.old_start = some c ∧
        HunkBlamer.blames starts commits fn [hd] =
          [(⟨fn, hd.old_start, [], 0, hd.new_start, hd.new_length,
              hd.new_lines⟩, {c})]) ∧
    (∀ (fn : String) (hds : List Delta) (db : Delta × Finset Nat),
      db ∈ HunkBlamer.blames starts commits fn hds →
      ∃ f : Nat → Nat,
        (∀ lineno, HunkBlamer._blame starts commits lineno = some (f lineno)) ∧
        db.2 =
          ((List.range' db.1.old_start (max 1 db.1.old_length)).map
              f).toFinset ∧
        db.2.Nonempty) := by
  have htot := blame_total starts commits hcne hlen
  constructor
  · intro fn hd h0 hwf
    refine ⟨(HunkBlamer._blame starts commits hd.old_start).getD 0,
      htot hd.old_start, ?_⟩
    unfold HunkBlamer.blames
    rw [List.map_cons, List.map_nil, List.flatten_cons, List.flatten_nil,
      List.append_nil, microDeltas_insertion fn hd h0 hwf, List.map_cons,
      List.map_nil]
    congr 1
    congr 1
    have hmax : List.range'
        ((⟨fn, hd.old_start, [], 0, hd.new_start, hd.new_length,
            hd.new_lines⟩ : Delta).old_start)
        (max 1 ((⟨fn, hd.old_start, [], 0, hd.new_start, hd.new_length,
            hd.new_lines⟩ : Delta).old_length)) = [hd.old_start] := by
      simp only
      have : max 1 (0 : Nat) = 1 := by simp
      rw [this, List.range'_one]
    rw [hmax, List.filterMap_cons, htot hd.old_start, List.filterMap_nil]
    simp
  · intro fn hds db hdb
    refine ⟨fun lineno => (HunkBlamer._blame starts commits lineno).getD 0,
      htot, ?_, ?_⟩
    · unfold HunkBlamer.blames at hdb
      obtain ⟨d, _, rfl⟩ := List.mem_map.mp hdb
      simp only
      exact congrArg List.toFinset (filterMap_eq_map_of_some _ (fun x _ => htot x))
    · unfold HunkBlamer.blames at hdb
      obtain ⟨d, _, rfl⟩ := List.mem_map.mp hdb
      simp only
      refine ⟨(HunkBlamer._blame starts commits d.old_start).getD 0, ?_⟩
      rw [List.mem_toFinset]
      rw [filterMap_eq_map_of_some _ (fun x _ => htot x)]
      refine List.mem_map.mpr ⟨d.old_start, ?_, rfl⟩
      have : 0 < max 1 d.old_length := by omega
      exact List.mem_range'.mpr ⟨0, by omega, by omega⟩

/-- Witness for C3 at the one-run blame index `starts = [1]`,
`commits = [7]`. -/
theorem blames_origin_spec_witness :
    (∀ (fn : String) (hd : Delta), hd.old_length = 0 → hd.WF →
      ∃ c, HunkBlamer._blame [1] [7] hd.old_start = some c ∧
        HunkBlamer.blames [1] [7] fn [hd] =
          [(⟨fn, hd.old_start, [], 0, hd.new_start, hd.new_length,
              hd.new_lines⟩, {c})]) ∧
    (∀ (fn : String) (hds : List Delta) (db : Delta × Finset Nat),
      db ∈ HunkBlamer.blames [1] [7] fn hds →
      ∃ f : Nat → Nat,
        (∀ lineno, HunkBlamer._blame [1] [7] lineno = some (f lineno)) ∧
        db.2 =
          ((List.range' db.1.old_start (max 1 db.1.old_length)).map
              f).toFinset ∧
        db.2.Nonempty) :=
  blames_origin_spec [1] [7] (by decide) (by decide)

/-- A pygit2 `Signature`: identity plus timestamp and timezone offset. -/
structure Signature where
  name : String
  email : String
  time : Int
  offset : Int
deriving DecidableEq, Inhabited

/-- An origin commit as read through `repo.get`: id, author signature,
committer timestamp/offset and message.  Commit ids (hex strings) are
modelled as `Nat`. -/
structure Commit0 where
  hexid : Nat
  author : Signature
  commit_time : Int
  commit_time_offset : Int
  message : String
deriving DecidableEq, Inhabited

/-- `commit_datetime`: `datetime.fromtimestamp(commit_time, tz)`.  Aware
datetimes compare by absolute time, so the sort key is `commit_time` alone
(the timezone offset only affects rendering). -/
def commit_datetime (c : Commit0) : Int := c.commit_time

/-- `GIT_FILEMODE_BLOB = 0o100644`. -/
def GIT_FILEMODE_BLOB : Nat := 33188

def GIT_STATUS_INDEX_NEW : Nat := 1
def GIT_STATUS_INDEX_MODIFIED : Nat := 2
def GIT_STATUS_INDEX_DELETED : Nat := 4
def GIT_STATUS_INDEX_RENAMED : Nat := 8
def GIT_STATUS_INDEX_TYPECHANGE : Nat := 16

/-- The module-level `index_statuses` mask (bitwise OR of the five
index-status flags). -/
def index_statuses : Nat :=
  GIT_STATUS_INDEX_NEW |||
    GIT_STATUS_INDEX_MODIFIED |||
    GIT_STATUS_INDEX_DELETED |||
    GIT_STATUS_INDEX_RENAMED |||
    GIT_STATUS_INDEX_TYPECHANGE

/-- `GIT_DELTA_MODIFIED` (libgit2 delta status value `3`). -/
def GIT_DELTA_MODIFIED : Nat := 3

/-- A commit written by `repo.create_commit`: its id, parents, author,
committer, message, and the tree (snapshot of the index) it points at. -/
structure CreatedCommit where
  id : Nat
  parents : List Nat
  author : Signature
  committer : Signature
  message : String
  tree : List (String × Nat × Nat)
deriving DecidableEq

/-- The mutable repository/orchestrator state during a run: per-file
patchers, the index (an accumulator of `(path, blob id, mode)` entries),
`HEAD`, fresh-id counters for blobs and commits, and the log of created
commits. -/
structure GBState where
  patchers : List (String × Patcher)
  index : List (String × Nat × Nat)
  head : Nat
  nextBlobId : Nat
  nextCommitId : Nat
  log : List CreatedCommit

/-- Dictionary lookup `self.patchers[filename]` (keys are always present when
accessed by the program; a missing key yields an empty patcher). -/
def lookupPatcher (ps : List (String × Patcher)) (fn : String) : Patcher :=
  ((ps.find? (fun q => q.1 = fn)).map Prod.snd).getD (Patcher.init [])

/-- Dictionary assignment `self.patchers[filename] = p`. -/
def setPatcher (ps : List (String × Patcher)) (fn : String) (p : Patcher) :
    List (String × Patcher) :=
  (ps.filter (fun q => ¬ q.1 = fn)) ++ [(fn, p)]

/-- `repo.index.add(IndexEntry(...))`: upsert by path. -/
def indexAdd (idx : List (String × Nat × Nat)) (e : String × Nat × Nat) :
    List (String × Nat × Nat) :=
  (idx.filter (fun q => ¬ q.1 = e.1)) ++ [e]

/-- `main_commit = commits[0]`, replaced by `sorted(commits,
key=commit_datetime)[-1]` when the group has more than one member (Python
`sorted` is stable, as is `List.mergeSort`). -/
def mainCommitOf (commits : List Commit0) : Commit0 :=
  if 1 < commits.length then
    (commits.mergeSort
        (fun a b => commit_datetime a ≤ commit_datetime b)).getLastD default
  else commits.headI

/-- `GitBlack._commit`: apply every delta of the group through the per-file
patchers, write one blob and one index entry (mode `GIT_FILEMODE_BLOB`) per
distinct touched filename, resolve the main origin commit, compose the
message, and create a single commit whose parent is the current `HEAD`,
advancing `HEAD` to it. -/
def GitBlack._commit (getCommit : Nat → Commit0) (userName userEmail : String)
    (now : Int) (s : GBState) (original_commits : List Nat)
    (deltas : List Delta) : GBState :=
  let patchers := deltas.foldl
    (fun ps d => setPatcher ps d.filename ((lookupPatcher ps d.filename).apply d))
    s.patchers
  let filenames := (deltas.map (fun d => d.filename)).dedup
  let step := fun (acc : List (String × Nat × Nat) × Nat) (fn : String) =>
    (indexAdd acc.1 (fn, acc.2, GIT_FILEMODE_BLOB), acc.2 + 1)
  let idxBlob := filenames.foldl step (s.index, s.nextBlobId)
  let commits := original_commits.map getCommit
  let main_commit := mainCommitOf commits
  let commit_message := main_commit.message ++
    "\n\nautomatic commit by git-black, original commits:\n" ++
    String.intercalate "\n"
      (original_commits.map (fun c => "  " ++ toString c))
  let committer : Signature := ⟨userName, userEmail, now, 0⟩
  let newCommit : CreatedCommit :=
    ⟨s.nextCommitId, [s.head], main_commit.author, committer, commit_message,
      idxBlob.1⟩
  { patchers := patchers
    index := idxBlob.1
    head := s.nextCommitId
    nextBlobId := idxBlob.2
    nextCommitId := s.nextCommitId + 1
    log := s.log ++ [newCommit] }

/-- Phase 2 of `commit_changes`: `for commits, deltas in
grouped_deltas.items(): self._commit(commits, deltas)`. -/
def GitBlack.phase2 (getCommit : Nat → Commit0) (userName userEmail : String)
    (now : Int) (s : GBState) (groups : List (List Nat × List Delta)) :
    GBState :=
  groups.foldl
    (fun st g => GitBlack._commit getCommit userName userEmail now st g.1 g.2) s

/-- The patches seen by `commit_changes`: pygit2 patch status, old-side path
and file mode, and the hunk deltas (`Delta.from_hunk` of each hunk).  The
old-side mode is available to the program but, notably, never read. -/
structure Patch0 where
  status : Nat
  old_path : String
  old_mode : Nat
  hunks : List Delta
deriving DecidableEq

/-- The error kinds raised by `commit_changes` (`GitIndexNotEmpty`). -/
inductive GBError where
  | gitIndexNotEmpty
deriving DecidableEq

/-- `grouped_deltas.setdefault(commits, []).append(delta)` on an insertion-
ordered association list. -/
def groupAdd (g : List (List Nat × List Delta)) (k : List Nat) (d : Delta) :
    List (List Nat × List Delta) :=
  if g.any (fun e => e.1 = k) then
    g.map (fun e => if e.1 = k then (e.1, e.2 ++ [d]) else e)
  else g ++ [(k, [d])]

/-- `tuple(sorted(delta_blame.commits))`. -/
def sortedTuple (s : Finset Nat) : List Nat := s.sort (· ≤ ·)

/-- `GitBlack.commit_changes`: fail with `GitIndexNotEmpty` when any path's
status carries an index-status bit; otherwise run phase 1 (skip non-modified
patches, build one patcher per file from its HEAD bytes, group each
`DeltaBlame` by its sorted origin tuple) and then phase 2 over the groups.
The diff, blame and HEAD-content services are passed as functions. -/
def GitBlack.commit_changes
    (repoStatus : List (String × Nat))
    (patches : List Patch0)
    (headContent : String → List Nat)
    (blameStarts blameCommits : String → List Nat)
    (getCommit : Nat → Commit0) (userName userEmail : String) (now : Int)
    (s0 : GBState) : Except GBError GBState :=
  if repoStatus.any (fun p => p.2 &&& index_statuses != 0) then
    Except.error GBError.gitIndexNotEmpty
  else
    let step := fun
        (acc : List (String × Patcher) × List (List Nat × List Delta))
        (patch : Patch0) =>
      if patch.status != GIT_DELTA_MODIFIED then acc
      else
        let fn := patch.old_path
        let patchers := setPatcher acc.1 fn (Patcher.init (headContent fn))
        let dbs := HunkBlamer.blames (blameStarts fn) (blameCommits fn) fn
          patch.hunks
        let grouped := dbs.foldl
          (fun g db => groupAdd g (sortedTuple db.2) db.1) acc.2
        (patchers, grouped)
    let phase1 := patches.foldl step (s0.patchers, [])
    Except.ok (GitBlack.phase2 getCommit userName userEmail now
      { s0 with patchers := phase1.1 } phase1.2)

/-- The `cli` entry point: run `commit_changes`, converting `GitIndexNotEmpty`
into a `ClickException` — exit code 1 with the message "staging area must be
empty"; exit code 0 otherwise. -/
def cliRun (repoStatus : List (String × Nat)) (patches : List Patch0)
    (headContent : String → List Nat)
    (blameStarts blameCommits : String → List Nat)
    (getCommit : Nat → Commit0) (userName userEmail : String) (now : Int)
    (s0 : GBState) : Nat × String :=
  match GitBlack.commit_changes repoStatus patches headContent blameStarts
      blameCommits getCommit userName userEmail now s0 with
  | Except.error GBError.gitIndexNotEmpty => (1, "staging area must be empty")
  | Except.ok _ => (0, "")

/-- C8: if any path's status has an index-status bit set, `commit_changes`
fails with `GitIndexNotEmpty` uniformly in the diff and repository state (so
before reading any diff, applying any delta or creating any commit), and
the CLI turns this into exit code 1 with a clear message; conversely with no
index-status bit set the error is never raised and the CLI exits 0. -/
theorem commit_changes_preflight (repoStatus : List (String × Nat)) :
    ((∃ p ∈ repoStatus, p.2 &&& index_statuses ≠ 0) →
      ∀ patches headContent blameStarts blameCommits getCommit userName
          userEmail now s0,
        GitBlack.commit_changes repoStatus patches headContent blameStarts
            blameCommits getCommit userName userEmail now s0 =
          Except.error GBError.gitIndexNotEmpty ∧
        cliRun repoStatus patches headContent blameStarts blameCommits
            getCommit userName userEmail now s0 =
          (1, "staging area must be empty")) ∧
    ((∀ p ∈ repoStatus, p.2 &&& index_statuses = 0) →
      ∀ patches headContent blameStarts blameCommits getCommit userName
          userEmail now s0,
        ∃ s1, GitBlack.commit_changes repoStatus patches headContent
            blameStarts blameCommits getCommit userName userEmail now s0 =
          Except.ok s1 ∧
        cliRun repoStatus patches headContent blameStarts blameCommits
            getCommit userName userEmail now s0 = (0, "")) := by
  constructor
  · intro hex patches hc bs bc gc un ue now s0
    obtain ⟨p, hp, hpne⟩ := hex
    have hany : repoStatus.any (fun p => p.2 &&& index_statuses != 0) = true := by
      rw [List.any_eq_true]
      exact ⟨p, hp, by simpa using hpne⟩
    have hcc : GitBlack.commit_changes repoStatus patches hc bs bc gc un ue
        now s0 = Except.error GBError.gitIndexNotEmpty := by
      unfold GitBlack.commit_changes
      rw [if_pos hany]
    refine ⟨hcc, ?_⟩
    unfold cliRun
    rw [hcc]
  · intro hall patches hc bs bc gc un ue now s0
    have hany : repoStatus.any (fun p => p.2 &&& index_statuses != 0) = false := by
      rw [List.any_eq_false]
      intro p hp
      simpa using hall p hp
    have hcc : ∃ s1, GitBlack.commit_changes repoStatus patches hc bs bc gc un
        ue now s0 = Except.ok s1 := by
      unfold GitBlack.commit_changes
      rw [if_neg (by simp [hany])]
      exact ⟨_, rfl⟩
    obtain ⟨s1, hs1⟩ := hcc
    refine ⟨s1, hs1, ?_⟩
    unfold cliRun
    rw [hs1]

/-- Witness for C8: a single staged-modified path triggers the error and exit
code 1; an empty status map yields success and exit code 0. -/
theorem commit_changes_preflight_witness :
    (GitBlack.commit_changes [("f", 2)] [] (fun _ => []) (fun _ => [])
        (fun _ => []) (fun _ => default) "u" "e" 0
        ⟨[], [], 0, 0, 0, []⟩ =
      Except.error GBError.gitIndexNotEmpty ∧
    cliRun [("f", 2)] [] (fun _ => []) (fun _ => []) (fun _ => [])
        (fun _ => default) "u" "e" 0 ⟨[], [], 0, 0, 0, []⟩ =
      (1, "staging area must be empty")) ∧
    ∃ s1, GitBlack.commit_changes [] [] (fun _ => []) (fun _ => [])
        (fun _ => []) (fun _ => default) "u" "e" 0
        ⟨[], [], 0, 0, 0, []⟩ = Except.ok s1 ∧
      cliRun [] [] (fun _ => []) (fun _ => []) (fun _ => [])
        (fun _ => default) "u" "e" 0 ⟨[], [], 0, 0, 0, []⟩ = (0, "") :=
  ⟨(commit_changes_preflight [("f", 2)]).1
      ⟨("f", 2), by decide, by decide⟩ [] (fun _ => []) (fun _ => [])
      (fun _ => []) (fun _ => default) "u" "e" 0 ⟨[], [], 0, 0, 0, []⟩,
    (commit_changes_preflight []).2 (by intro p hp; cases hp) [] (fun _ => [])
      (fun _ => []) (fun _ => []) (fun _ => default) "u" "e" 0
      ⟨[], [], 0, 0, 0, []⟩⟩

theorem foldl_indexAdd_mode (fns : List String) :
    ∀ (idx : List (String × Nat × Nat)) (nb : Nat),
      ∀ e ∈ (fns.foldl (fun acc fn =>
          (indexAdd acc.1 (fn, acc.2, GIT_FILEMODE_BLOB), acc.2 + 1))
          (idx, nb)).1,
        e ∈ idx ∨ e.2.2 = GIT_FILEMODE_BLOB := by
  induction fns with
  | nil => intro idx nb e he; exact Or.inl he
  | cons fn fns ih =>
      intro idx nb e he
      rw [List.foldl_cons] at he
      rcases ih _ _ e he with hin | hmode
      · unfold indexAdd at hin
        rcases List.mem_append.mp hin with hf | hs
        · exact Or.inl (List.mem_filter.mp hf).1
        · cases List.mem_singleton.mp hs
          exact Or.inr rfl
      · exact Or.inr hmode

/-- C4 (amended): every index entry `_commit` writes carries the fixed
constant mode `GIT_FILEMODE_BLOB` (0o100644) — the old-side file mode of the
patch is never consulted; entries not written by this call are inherited
unchanged from the previous index. -/
theorem commit_index_mode (getCommit : Nat → Commit0) (un ue : String)
    (now : Int) (s : GBState) (ids : List Nat) (ds : List Delta) :
    ∀ e ∈ (GitBlack._commit getCommit un ue now s ids ds).index,
      e ∈ s.index ∨ e.2.2 = GIT_FILEMODE_BLOB := by
  intro e he
  have he' : e ∈ ((((ds.map (fun d => d.filename)).dedup).foldl
      (fun acc fn => (indexAdd acc.1 (fn, acc.2, GIT_FILEMODE_BLOB), acc.2 + 1))
      (s.index, s.nextBlobId))).1 := he
  exact foldl_indexAdd_mode ((ds.map (fun d => d.filename)).dedup)
    s.index s.nextBlobId e he'

/-- Counterexample to C4 as stated: a run over a patch whose old-side mode is
`0o100755` (33261, an executable file) still writes its index entry with mode
`GIT_FILEMODE_BLOB = 0o100644` (33188), not the recorded old-side mode. -/
theorem commit_index_mode_counterexample :
    (GitBlack.commit_changes [] [⟨GIT_DELTA_MODIFIED, "f", 33261,
        [⟨"f", 1, [[97, 10]], 1, 1, 1, [[65, 10]]⟩]⟩]
        (fun _ => [97, 10]) (fun _ => [1]) (fun _ => [5])
        (fun _ => default) "u" "e" 0 ⟨[], [], 0, 0, 0, []⟩).map
        (fun s1 => s1.index.map (fun e => e.2.2)) =
      Except.ok [GIT_FILEMODE_BLOB] ∧
    GIT_FILEMODE_BLOB ≠ 33261 := by
  constructor
  · rfl
  · decide

/-- Witness for the amended C4 at a concrete `_commit` call and the concrete
entry it writes. -/
theorem commit_index_mode_witness :
    (("f", 0, GIT_FILEMODE_BLOB) : String × Nat × Nat) ∈
        ([] : List (String × Nat × Nat)) ∨
      (("f", 0, GIT_FILEMODE_BLOB) : String × Nat × Nat).2.2 =
        GIT_FILEMODE_BLOB :=
  commit_index_mode (fun _ => default) "u" "e" 0
    ⟨[("f", Patcher.init [97, 10])], [], 7, 0, 0, []⟩ [5]
    [⟨"f", 1, [[97, 10]], 1, 1, 1, [[65, 10]]⟩] ("f", 0, GIT_FILEMODE_BLOB)
    (by decide)

theorem pairwise_getLast_max {α : Type} (R : α → α → Prop) :
    ∀ (l : List α) (hne : l ≠ []), l.Pairwise R →
      ∀ c ∈ l, c = l.getLast hne ∨ R c (l.getLast hne) := by
  intro l
  induction l with
  | nil => intro hne; exact absurd rfl hne
  | cons x xs ih =>
      intro hne hp c hc
      cases xs with
      | nil =>
          rcases List.mem_singleton.mp hc with rfl
          exact Or.inl rfl
      | cons y ys =>
          have hne2 : y :: ys ≠ [] := by simp
          have hlast : (x :: y :: ys).getLast hne = (y :: ys).getLast hne2 :=
            List.getLast_cons hne2
          rw [hlast]
          rcases List.mem_cons.mp hc with rfl | hc2
          · right
            have hmem : (y :: ys).getLast hne2 ∈ y :: ys :=
              List.getLast_mem hne2
            exact (List.pairwise_cons.mp hp).1 _ hmem
          · exact ih hne2 (List.pairwise_cons.mp hp).2 c hc2

theorem mainCommitOf_spec (l : List Commit0) (hne : l ≠ []) :
    mainCommitOf l ∈ l ∧
      ∀ c ∈ l, commit_datetime c ≤ commit_datetime (mainCommitOf l) := by
  unfold mainCommitOf
  by_cases h : 1 < l.length
  · rw [if_pos h]
    have hperm := List.mergeSort_perm l
      (fun a b => commit_datetime a ≤ commit_datetime b)
    have hne2 : l.mergeSort (fun a b => commit_datetime a ≤ commit_datetime b)
        ≠ [] := by
      intro hEq
      rw [hEq] at hperm
      exact hne (List.Perm.nil_eq hperm).symm
    have hsorted := @List.sorted_mergeSort Commit0
      (fun a b => commit_datetime a ≤ commit_datetime b)
      (fun a b c hab hbc => by
        simp only [decide_eq_true_eq] at *
        omega)
      (fun a b => by
        simp only [Bool.or_eq_true, decide_eq_true_eq]
        omega) l
    have hlastD : (l.mergeSort
        (fun a b => commit_datetime a ≤ commit_datetime b)).getLastD default =
        (l.mergeSort
          (fun a b => commit_datetime a ≤ commit_datetime b)).getLast hne2 := by
      rw [List.getLastD_eq_getLast?, List.getLast?_eq_getLast _ hne2]
      rfl
    rw [hlastD]
    constructor
    · exact hperm.mem_iff.mp (List.getLast_mem hne2)
    · intro c hc
      have hc2 := hperm.mem_iff.mpr hc
      rcases pairwise_getLast_max _ _ hne2 hsorted c hc2 with rfl | hR
      · omega
      · simpa using hR
  · rw [if_neg h]
    cases l with
    | nil => exact absurd rfl hne
    | cons x xs =>
        cases xs with
        | nil =>
            constructor
            · simp [List.headI]
            · intro c hc
              rcases List.mem_singleton.mp hc with rfl
              simp [List.headI]
        | cons y ys => simp at h

/-- The linear-parent property: each commit's parent list is exactly the
previous head, and the head advances to its id. -/
def ChainFrom : Nat → List CreatedCommit → Prop
  | _, [] => True
  | h, c :: rest => c.parents = [h] ∧ ChainFrom c.id rest

/-- The author `_commit` stamps for a group: the author of the main origin
commit of the group's id tuple. -/
def mainAuthor (getCommit : Nat → Commit0) (ids : List Nat) : Signature :=
  (mainCommitOf (ids.map getCommit)).author

theorem GitBlack.commit_log (gc : Nat → Commit0) (un ue : String) (now : Int)
    (s : GBState) (ids : List Nat) (ds : List Delta) :
    ∃ e : CreatedCommit,
      (GitBlack._commit gc un ue now s ids ds).log = s.log ++ [e] ∧
      e.parents = [s.head] ∧ e.id = s.nextCommitId ∧
      e.author = mainAuthor gc ids ∧
      (GitBlack._commit gc un ue now s ids ds).head = s.nextCommitId := by
  refine ⟨⟨s.nextCommitId, [s.head], mainAuthor gc ids, ⟨un, ue, now, 0⟩,
    (mainCommitOf (ids.map gc)).message ++
      "\n\nautomatic commit by git-black, original commits:\n" ++
      String.intercalate "\n" (ids.map (fun c => "  " ++ toString c)),
    (((ds.map (fun d => d.filename)).dedup).foldl
        (fun acc fn =>
          (indexAdd acc.1 (fn, acc.2, GIT_FILEMODE_BLOB), acc.2 + 1))
        (s.index, s.nextBlobId)).1⟩, ?_, ?_, ?_, ?_, ?_⟩ <;> rfl

theorem phase2_log_spec (gc : Nat → Commit0) (un ue : String) (now : Int) :
    ∀ (groups : List (List Nat × List Delta)) (s0 : GBState),
      ∃ tail : List CreatedCommit,
        (GitBlack.phase2 gc un ue now s0 groups).log = s0.log ++ tail ∧
        tail.length = groups.length ∧
        ChainFrom s0.head tail ∧
        tail.map CreatedCommit.author =
          groups.map (fun g => mainAuthor gc g.1) := by
  intro groups
  induction groups with
  | nil =>
      intro s0
      exact ⟨[], by simp [GitBlack.phase2], rfl, trivial, rfl⟩
  | cons g gs ih =>
      intro s0
      obtain ⟨e, helog, hepar, heid, heauth, hehead⟩ :=
        GitBlack.commit_log gc un ue now s0 g.1 g.2
      obtain ⟨tl, htl1, htl2, htl3, htl4⟩ :=
        ih (GitBlack._commit gc un ue now s0 g.1 g.2)
      refine ⟨e :: tl, ?_, ?_, ?_, ?_⟩
      · have hstep : GitBlack.phase2 gc un ue now s0 (g :: gs) =
            GitBlack.phase2 gc un ue now
              (GitBlack._commit gc un ue now s0 g.1 g.2) gs := rfl
        rw [hstep, htl1, helog]
        simp
      · simp [htl2]
      · simp only [ChainFrom]
        refine ⟨hepar, ?_⟩
        rw [heid, ← hehead]
        exact htl3
      · simp only [List.map_cons]
        rw [htl4, heauth]

/-- C7: phase 2 creates exactly one commit per distinct origin group; the
created commits form a single-parent chain starting at the initial `HEAD`
(each parent is the head at the moment of creation, i.e. the previous
group's commit), and each one's author signature — name, email, timestamp
and timezone — is the author of the group's main origin commit, the group
member with the maximal committer timestamp. -/
theorem phase2_commit_spec (gc : Nat → Commit0) (un ue : String) (now : Int)
    (groups : List (List Nat × List Delta)) (s0 : GBState)
    (_hkeys : (groups.map Prod.fst).Nodup)
    (hne : ∀ g ∈ groups, g.1 ≠ []) :
    ∃ tail : List CreatedCommit,
      (GitBlack.phase2 gc un ue now s0 groups).log = s0.log ++ tail ∧
      tail.length = groups.length ∧
      ChainFrom s0.head tail ∧
      tail.map CreatedCommit.author =
        groups.map (fun g => mainAuthor gc g.1) ∧
      ∀ g ∈ groups,
        mainCommitOf (g.1.map gc) ∈ g.1.map gc ∧
        ∀ c ∈ g.1.map gc,
          commit_datetime c ≤ commit_datetime (mainCommitOf (g.1.map gc)) := by
  obtain ⟨tail, h1, h2, h3, h4⟩ := phase2_log_spec gc un ue now groups s0
  refine ⟨tail, h1, h2, h3, h4, ?_⟩
  intro g hg
  have hne2 : g.1.map gc ≠ [] := by
    intro hEq
    exact hne g hg (List.map_eq_nil_iff.mp hEq)
  exact mainCommitOf_spec _ hne2

/-- Witness for C7 on two singleton-origin groups starting from head 7. -/
theorem phase2_commit_spec_witness :
    ∃ tail : List CreatedCommit,
      (GitBlack.phase2 (fun n => ⟨n, ⟨"a", "b", n, 0⟩, n, 0, "m"⟩) "u" "e" 0
          ⟨[], [], 7, 0, 0, []⟩ [([5], []), ([3], [])]).log =
        ([] : List CreatedCommit) ++ tail ∧
      tail.length = ([([5], []), ([3], [])] :
          List (List Nat × List Delta)).length ∧
      ChainFrom 7 tail ∧
      tail.map CreatedCommit.author =
        ([([5], []), ([3], [])] : List (List Nat × List Delta)).map
          (fun g => mainAuthor (fun n => ⟨n, ⟨"a", "b", n, 0⟩, n, 0, "m"⟩) g.1) ∧
      ∀ g ∈ ([([5], []), ([3], [])] : List (List Nat × List Delta)),
        mainCommitOf (g.1.map (fun n => ⟨n, ⟨"a", "b", n, 0⟩, n, 0, "m"⟩)) ∈
          g.1.map (fun n => ⟨n, ⟨"a", "b", n, 0⟩, n, 0, "m"⟩) ∧
        ∀ c ∈ g.1.map (fun n => ⟨n, ⟨"a", "b", n, 0⟩, n, 0, "m"⟩),
          commit_datetime c ≤ commit_datetime
            (mainCommitOf (g.1.map (fun n => ⟨n, ⟨"a", "b", n, 0⟩, n, 0, "m"⟩))) :=
  phase2_commit_spec (fun n => ⟨n, ⟨"a", "b", n, 0⟩, n, 0, "m"⟩) "u" "e" 0
    [([5], []), ([3], [])] ⟨[], [], 7, 0, 0, []⟩ (by decide)
    (by intro g hg; fin_cases hg <;> decide)
